import Mathlib

/-!
# Verification of the merge-sort core of `daa-mergesort`

This file is a shallow embedding of the sorting routines in
`src/scripts/ui-admin.js` (`merge`, `mergeSort`, `sortByPrice`, `sortByName`)
together with the `Product` record shape from `src/scripts/products.js`,
and proofs of the contract stated for them in the specification.

Modelling decisions, documented once here:

* A JavaScript number is modelled as `ℚ` and the special value `NaN` as
  `Option ℚ`'s `none`.  The only numeric operations the sort performs are
  `parseFloat` and `<=`, and on the values that actually flow through them
  (decimal literals and their parses) IEEE ordering agrees with `ℚ`
  ordering; `NaN` is kept separate because JavaScript's `<=` returns
  `false` whenever either side is `NaN`, which is visible in the code's
  behaviour.
* The raw content of a record's `price` field is modelled by `PriceVal`:
  either a value `parseFloat` converts to a number `q` (represented
  `num q`), or a value on which `parseFloat` yields `NaN` (represented
  `nonNumeric s`, e.g. the string "abc").
* `String.prototype.localeCompare` is modelled as the three-way comparison
  induced by the linear order on `String`.  Every property proved about
  name sorting uses only that the collation is a consistent linear
  comparison, which holds of any locale collator.
* JavaScript arrays are Lean lists; `Array.isArray` failing is modelled by
  the `JSValue.notAnArray` constructor.
* Element access `left[leftIndex]` in `merge` is abstracted over a
  dereference function `val : α → Product`, so that the same definitions
  give both the plain value-level sort (`val = id`) and the heap/reference
  view used to state the non-mutation property (`val = Heap.read h`).
  With `val = id` the definitions are letter-for-letter the source code.
-/

/-- The raw JavaScript value stored in a record's `price` field, classified
by what `parseFloat` does to it: `num q` is any value parsing to the number
`q`; `nonNumeric s` is a string `parseFloat` cannot parse (it yields `NaN`). -/
inductive PriceVal where
  | num (q : ℚ)
  | nonNumeric (s : String)
deriving DecidableEq, Repr

/-- JavaScript `parseFloat`, by outcome: `none` is `NaN`. -/
def parseFloat : PriceVal → Option ℚ
  | .num q => some q
  | .nonNumeric _ => none

/-- JavaScript `<=` on numbers: `none` is `NaN`, and any comparison
involving `NaN` is `false`. -/
def jsLe : Option ℚ → Option ℚ → Bool
  | some a, some b => decide (a ≤ b)
  | some _, none => false
  | none, _ => false

/-- `String.prototype.localeCompare`, modelled as the three-way comparison
of the linear order on `String` (negative, zero, positive). -/
def localeCompare (a b : String) : Int :=
  if a < b then -1 else if b < a then 1 else 0

/-- The `Product` class of `src/scripts/products.js`: fields `id`, `name`,
`price`, `image`. -/
structure Product where
  id : Int
  name : String
  price : PriceVal
  image : String
deriving DecidableEq, Repr

/-- The `sortBy` argument: the string `'price'` or `'name'`. -/
inductive SortKey where
  | price
  | name
deriving DecidableEq, Repr

/-- The `comparison` value computed in the loop body of `merge`
(`ui-admin.js:461-470`): for `'price'`, `parseFloat` both sides and return
`-1` when `leftValue <= rightValue`, else `1`; for `'name'`,
`leftValue.localeCompare(rightValue)`. -/
def compareKey (sortBy : SortKey) (a b : Product) : Int :=
  match sortBy with
  | .price => if jsLe (parseFloat a.price) (parseFloat b.price) then -1 else 1
  | .name => localeCompare a.name b.name

/-- `merge` of `ui-admin.js:455-494`: the main `while` loop pushes the head
of `left` when `comparison <= 0` and the head of `right` otherwise; the two
trailing `while` loops append the remainder of whichever side is not yet
exhausted.  `val` dereferences an element to the `Product` whose fields the
comparison reads (`id` for the plain sort). -/
def merge {α : Type} (val : α → Product) (left right : List α) (sortBy : SortKey) :
    List α :=
  match left, right with
  | [], _ => right
  | _ :: _, [] => left
  | a :: ls, b :: rs =>
    if compareKey sortBy (val a) (val b) ≤ 0 then
      a :: merge val ls (b :: rs) sortBy
    else
      b :: merge val (a :: ls) rs sortBy

/-- `mergeSort` of `ui-admin.js:502-521`: arrays of length `<= 1` are
returned as-is; otherwise split at `middle = Math.floor(items.length / 2)`
into `items.slice(0, middle)` and `items.slice(middle)`, recursively sort
both halves and merge them. -/
def mergeSort {α : Type} (val : α → Product) (items : List α) (sortBy : SortKey) :
    List α :=
  if _h : items.length ≤ 1 then
    items
  else
    merge val
      (mergeSort val (items.take (items.length / 2)) sortBy)
      (mergeSort val (items.drop (items.length / 2)) sortBy)
      sortBy
termination_by items.length
decreasing_by
  · simp only [List.length_take]
    omega
  · simp only [List.length_drop]
    omega

/-- The element operation of the defensive copy
`products.map(p => new Product(p.id, p.name, p.price, p.image))`
(`ui-admin.js:533` and `:550`). -/
def copyProduct (p : Product) : Product :=
  { id := p.id, name := p.name, price := p.price, image := p.image }

/-- A JavaScript value passed where an array of products is expected:
either an actual array, or anything for which `Array.isArray` is `false`. -/
inductive JSValue where
  | array (products : List Product)
  | notAnArray
deriving DecidableEq

/-- `sortByPrice` of `ui-admin.js:528-538`: return `[]` when the argument
is not an array or is empty; otherwise copy every element and merge-sort
the copy by `'price'`. -/
def sortByPrice (products : JSValue) : List Product :=
  match products with
  | .notAnArray => []
  | .array l =>
    if l.length = 0 then []
    else mergeSort id (l.map copyProduct) .price

/-- `sortByName` of `ui-admin.js:545-555`: same shape as `sortByPrice`,
sorting by `'name'`. -/
def sortByName (products : JSValue) : List Product :=
  match products with
  | .notAnArray => []
  | .array l =>
    if l.length = 0 then []
    else mergeSort id (l.map copyProduct) .name

/-! ## The order the code sorts by -/

/-- The (non-strict) comparison the code's branch `comparison <= 0`
implements: `keyLe k a b` holds exactly when `merge` would emit `a` before
`b` when comparing them. -/
def keyLe (k : SortKey) (a b : Product) : Prop := compareKey k a b ≤ 0

instance (k : SortKey) (a b : Product) : Decidable (keyLe k a b) := by
  unfold keyLe
  infer_instance

/-- A record is well-formed for a key when that key's comparison treats it
as an ordinary value: for `price`, `parseFloat` must succeed (no `NaN`);
every record is well-formed for `name`. -/
def WellFormed : SortKey → Product → Prop
  | .price, p => (parseFloat p.price).isSome = true
  | .name, _ => True

instance (k : SortKey) (p : Product) : Decidable (WellFormed k p) := by
  unfold WellFormed
  cases k <;> infer_instance

/-- Two records "compare equal" under the code's comparison: each would be
emitted no later than the other (`comparison <= 0` both ways). -/
def keyEq (k : SortKey) (a b : Product) : Prop := keyLe k a b ∧ keyLe k b a

instance (k : SortKey) (a b : Product) : Decidable (keyEq k a b) := by
  unfold keyEq
  infer_instance

/-! ## The reference/heap view: objects, allocation, and the defensive copy

JavaScript arrays hold references to `Product` objects; `new Product(...)`
allocates a fresh object.  We model the object store as a list of cells
(`Heap`), an object reference as an index into it (`Addr`), and allocation
as appending a cell.  The source never assigns to any field of an existing
object, so the only state change in `sortByPrice`/`sortByName` is the
allocation performed by `products.map(p => new Product(...))`; `mergeSort`
and `merge` only read fields (through `Heap.read`) and rearrange
references. -/

abbrev Addr := Nat

/-- The store of allocated `Product` objects. -/
structure Heap where
  cells : List Product
deriving DecidableEq

/-- Dereference an object: field reads `p.id`, `p.name`, ... go through
this (a dangling address reads a dummy object; the programs proved about
never dereference one). -/
def Heap.read (h : Heap) (a : Addr) : Product :=
  h.cells.getD a ⟨0, "", .num 0, ""⟩

/-- The defensive copy `products.map(p => new Product(p.id, p.name,
p.price, p.image))` at the heap level: for each referenced object,
allocate a fresh cell holding a field-for-field copy, and collect the
fresh references in order. -/
def allocCopies : Heap → List Addr → Heap × List Addr
  | h, [] => (h, [])
  | h, a :: rest =>
    let fresh := h.cells.length
    let h1 : Heap := ⟨h.cells ++ [copyProduct (h.read a)]⟩
    let res := allocCopies h1 rest
    (res.1, fresh :: res.2)

/-- `sortByPrice`/`sortByName` at the heap level (`ui-admin.js:528-555`):
guard, defensive copy, then merge sort over the fresh references, reading
fields through the heap. -/
def sortRef (h : Heap) (products : List Addr) (sortBy : SortKey) :
    Heap × List Addr :=
  if products.length = 0 then (h, [])
  else
    let res := allocCopies h products
    (res.1, mergeSort res.1.read res.2 sortBy)

/-- `sortByPrice`, heap level. -/
def sortByPriceRef (h : Heap) (products : List Addr) : Heap × List Addr :=
  sortRef h products .price

/-- `sortByName`, heap level. -/
def sortByNameRef (h : Heap) (products : List Addr) : Heap × List Addr :=
  sortRef h products .name

/-! ## Derived relations, the spec's reference algorithm, and fixtures -/

/-- Numeric price order, as the spec reads: both prices parse to numbers
and the numbers compare `<=`. -/
def priceLe (a b : Product) : Prop :=
  match parseFloat a.price, parseFloat b.price with
  | some qa, some qb => qa ≤ qb
  | _, _ => False

instance (a b : Product) : Decidable (priceLe a b) := by
  unfold priceLe
  rcases parseFloat a.price with _ | qa <;> rcases parseFloat b.price with _ | qb <;>
    infer_instance

/-- Textual name order (the model of the locale collation). -/
def nameLe (a b : Product) : Prop := a.name ≤ b.name

instance (a b : Product) : Decidable (nameLe a b) := by
  unfold nameLe
  infer_instance

/-- Modelled from the spec: the comparison "under the chosen key" of the
reference algorithm in section 4.1 — "parse/convert to a decimal number,
compare numerically" for `price` (the spec's domain is records whose keys
parse; `getD 0` is never reached on that domain), locale text comparison
for `name`. -/
def specKeyLe (k : SortKey) (a b : Product) : Prop :=
  match k with
  | .price => (parseFloat a.price).getD 0 ≤ (parseFloat b.price).getD 0
  | .name => localeCompare a.name b.name ≤ 0

instance (k : SortKey) (a b : Product) : Decidable (specKeyLe k a b) := by
  unfold specKeyLe
  cases k <;> infer_instance

/-- Modelled from the spec, section 4.1 step 4: "repeatedly compare the
current head of each half under the chosen key and append the lesser (or,
on a tie, the left-hand element)"; "when one half is exhausted, append the
remainder of the other half in its existing order". -/
def specMerge (left right : List Product) (k : SortKey) : List Product :=
  match left, right with
  | [], _ => right
  | _ :: _, [] => left
  | a :: ls, b :: rs =>
    if specKeyLe k a b then a :: specMerge ls (b :: rs) k
    else b :: specMerge (a :: ls) rs k

/-- Modelled from the spec, section 4.1 steps 1-3: length `<= 1` is
returned unchanged; otherwise split positionally at the midpoint
`floor(n/2)` into the first half and the remainder, recursively sort each
half with the same key, and merge. -/
def specMergeSort (items : List Product) (k : SortKey) : List Product :=
  if _h : items.length ≤ 1 then items
  else
    specMerge (specMergeSort (items.take (items.length / 2)) k)
      (specMergeSort (items.drop (items.length / 2)) k) k
termination_by items.length
decreasing_by
  · simp only [List.length_take]
    omega
  · simp only [List.length_drop]
    omega

/-- Fixture: a record whose price is the unparseable string "abc" (the
spec's own example `sort([{price:"abc"}], price)`). -/
def pAbc : Product := ⟨1, "A", .nonNumeric "abc", "assets/a.jpg"⟩

/-- Fixture: a second record with an unparseable price. -/
def pDef : Product := ⟨2, "B", .nonNumeric "def", "assets/b.jpg"⟩

/-- Fixture: price 5, earliest of the two equal-priced records. -/
def pFive1 : Product := ⟨1, "x", .num 5, "assets/x.jpg"⟩

/-- Fixture: price 5, latest of the two equal-priced records. -/
def pFive2 : Product := ⟨3, "y", .num 5, "assets/y.jpg"⟩

/-- Fixture: price 6. -/
def pSix : Product := ⟨4, "w", .num 6, "assets/w.jpg"⟩

/-- Fixture: the sample catalog of the spec's scenario 1. -/
def pCat215 : Product := ⟨1, "k", .num 215, "assets/1.jpg"⟩

/-- Fixture: scenario 1, price 75. -/
def pCat75 : Product := ⟨2, "l", .num 75, "assets/2.jpg"⟩

/-- Fixture: scenario 1, price 140. -/
def pCat140 : Product := ⟨3, "m", .num 140, "assets/3.jpg"⟩

/-- Fixture heap: two allocated objects. -/
def heap0 : Heap := ⟨[pFive1, pSix]⟩

/-- `Array.isArray`, the guard of `sortByPrice`/`sortByName`
(`ui-admin.js:529` and `:546`). -/
def isArray : JSValue → Bool
  | .array _ => true
  | .notAnArray => false

/-! ## Theorems -/

/-! ## Basic lemmas about the embedded code -/

/-- One-step unfolding of `mergeSort` (its defining equation, with the
unused termination hypothesis erased). -/
theorem mergeSort_unfold {α : Type} (val : α → Product) (items : List α)
    (sortBy : SortKey) :
    mergeSort val items sortBy =
      if items.length ≤ 1 then items
      else
        merge val
          (mergeSort val (items.take (items.length / 2)) sortBy)
          (mergeSort val (items.drop (items.length / 2)) sortBy)
          sortBy := by
  rw [mergeSort, dite_eq_ite]

/-- `merge` emits exactly the elements of its two arguments: its output is
a permutation of `left ++ right`. -/
theorem merge_perm {α : Type} (val : α → Product) (left right : List α)
    (sortBy : SortKey) : (merge val left right sortBy).Perm (left ++ right) := by
  induction left, right, sortBy using merge.induct val with
  | case1 r k => simp [merge]
  | case2 k a ls => simp [merge]
  | case3 k a ls b rs hc ih =>
    simp only [merge, if_pos hc, List.cons_append]
    exact ih.cons a
  | case4 k a ls b rs hc ih =>
    simp only [merge, if_neg hc]
    exact (ih.cons b).trans List.perm_middle.symm

/-- `mergeSort` permutes its input. -/
theorem mergeSort_perm {α : Type} (val : α → Product) (items : List α)
    (sortBy : SortKey) : (mergeSort val items sortBy).Perm items := by
  rw [mergeSort_unfold]
  split
  · exact List.Perm.refl _
  · rename_i h
    have h2 : 2 ≤ items.length := by omega
    have hl : (items.take (items.length / 2)).length < items.length := by
      simp only [List.length_take]
      omega
    have hr : (items.drop (items.length / 2)).length < items.length := by
      simp only [List.length_drop]
      omega
    have ihl := mergeSort_perm val (items.take (items.length / 2)) sortBy
    have ihr := mergeSort_perm val (items.drop (items.length / 2)) sortBy
    refine ((merge_perm _ _ _ _).trans ((ihl.append ihr).trans ?_))
    rw [List.take_append_drop]
termination_by items.length

/-- `mergeSort` preserves length. -/
theorem mergeSort_length {α : Type} (val : α → Product) (items : List α)
    (sortBy : SortKey) : (mergeSort val items sortBy).length = items.length :=
  (mergeSort_perm val items sortBy).length_eq

theorem keyLe_price_iff {a b : Product} {qa qb : ℚ}
    (ha : parseFloat a.price = some qa) (hb : parseFloat b.price = some qb) :
    keyLe .price a b ↔ qa ≤ qb := by
  unfold keyLe compareKey jsLe
  rw [ha, hb]
  by_cases h : qa ≤ qb
  · simp [h]
  · simp [h]

theorem keyLe_name_iff (a b : Product) : keyLe .name a b ↔ a.name ≤ b.name := by
  unfold keyLe compareKey localeCompare
  rcases lt_trichotomy a.name b.name with h | h | h
  · simp [h, le_of_lt h]
  · simp [h, le_of_eq h]
  · have h1 : ¬ a.name < b.name := not_lt.mpr (le_of_lt h)
    have h2 : ¬ a.name ≤ b.name := not_le.mpr h
    simp [h1, h, h2]

/-- On well-formed records the code's comparison is total. -/
theorem keyLe_total {k : SortKey} {a b : Product}
    (ha : WellFormed k a) (hb : WellFormed k b) :
    keyLe k a b ∨ keyLe k b a := by
  cases k with
  | price =>
    obtain ⟨qa, hqa⟩ := Option.isSome_iff_exists.mp ha
    obtain ⟨qb, hqb⟩ := Option.isSome_iff_exists.mp hb
    rw [keyLe_price_iff hqa hqb, keyLe_price_iff hqb hqa]
    exact le_total qa qb
  | name =>
    rw [keyLe_name_iff, keyLe_name_iff]
    exact le_total a.name b.name

theorem keyLe_of_not_keyLe {k : SortKey} {a b : Product}
    (ha : WellFormed k a) (hb : WellFormed k b) (h : ¬ keyLe k a b) :
    keyLe k b a := (keyLe_total ha hb).resolve_left h

/-- On well-formed records the code's comparison is transitive. -/
theorem keyLe_trans {k : SortKey} {a b c : Product}
    (ha : WellFormed k a) (hb : WellFormed k b) (hc : WellFormed k c)
    (hab : keyLe k a b) (hbc : keyLe k b c) : keyLe k a c := by
  cases k with
  | price =>
    obtain ⟨qa, hqa⟩ := Option.isSome_iff_exists.mp ha
    obtain ⟨qb, hqb⟩ := Option.isSome_iff_exists.mp hb
    obtain ⟨qc, hqc⟩ := Option.isSome_iff_exists.mp hc
    rw [keyLe_price_iff hqa hqb] at hab
    rw [keyLe_price_iff hqb hqc] at hbc
    rw [keyLe_price_iff hqa hqc]
    exact le_trans hab hbc
  | name =>
    rw [keyLe_name_iff] at hab hbc ⊢
    exact le_trans hab hbc

theorem mem_of_mem_merge {α : Type} {val : α → Product} {l r : List α}
    {k : SortKey} {x : α} (h : x ∈ merge val l r k) : x ∈ l ∨ x ∈ r := by
  have := (merge_perm val l r k).mem_iff.mp h
  simpa using this

theorem mem_of_mem_mergeSort {α : Type} {val : α → Product} {items : List α}
    {k : SortKey} {x : α} (h : x ∈ mergeSort val items k) : x ∈ items :=
  (mergeSort_perm val items k).mem_iff.mp h

/-- Merging two runs that are sorted under the code's comparison yields a
run sorted under it, provided every record involved is well-formed. -/
theorem merge_pairwise (l r : List Product) (k : SortKey) :
    (∀ x ∈ l, WellFormed k x) → (∀ x ∈ r, WellFormed k x) →
    l.Pairwise (keyLe k) → r.Pairwise (keyLe k) →
    (merge id l r k).Pairwise (keyLe k) := by
  induction l, r, k using merge.induct id with
  | case1 r k =>
    intro _ hwr _ hpr
    simpa [merge] using hpr
  | case2 k a ls =>
    intro hwl _ hpl _
    simpa [merge] using hpl
  | case3 k a ls b rs hc ih =>
    intro hwl hwr hpl hpr
    have hab : keyLe k a b := hc
    simp only [merge, if_pos hc]
    rw [List.pairwise_cons]
    constructor
    · intro x hx
      rcases mem_of_mem_merge hx with hx | hx
      · exact (List.pairwise_cons.mp hpl).1 x hx
      · rcases List.mem_cons.mp hx with rfl | hx
        · exact hab
        · exact keyLe_trans (hwl a (List.mem_cons_self a ls))
            (hwr b (List.mem_cons_self b rs)) (hwr x (List.mem_cons_of_mem b hx))
            hab ((List.pairwise_cons.mp hpr).1 x hx)
    · exact ih (fun x hx => hwl x (List.mem_cons_of_mem a hx)) hwr
        (List.pairwise_cons.mp hpl).2 hpr
  | case4 k a ls b rs hc ih =>
    intro hwl hwr hpl hpr
    have hba : keyLe k b a :=
      keyLe_of_not_keyLe (hwl a (List.mem_cons_self a ls))
        (hwr b (List.mem_cons_self b rs)) hc
    simp only [merge, if_neg hc]
    rw [List.pairwise_cons]
    constructor
    · intro x hx
      rcases mem_of_mem_merge hx with hx | hx
      · rcases List.mem_cons.mp hx with rfl | hx
        · exact hba
        · exact keyLe_trans (hwr b (List.mem_cons_self b rs))
            (hwl a (List.mem_cons_self a ls)) (hwl x (List.mem_cons_of_mem a hx))
            hba ((List.pairwise_cons.mp hpl).1 x hx)
      · exact (List.pairwise_cons.mp hpr).1 x hx
    · exact ih hwl (fun x hx => hwr x (List.mem_cons_of_mem b hx)) hpl
        (List.pairwise_cons.mp hpr).2

/-- `mergeSort` output is sorted under the code's comparison whenever every
record of the input is well-formed for the key. -/
theorem mergeSort_pairwise (items : List Product) (k : SortKey)
    (hw : ∀ x ∈ items, WellFormed k x) :
    (mergeSort id items k).Pairwise (keyLe k) := by
  rw [mergeSort_unfold]
  split
  · rename_i h
    rcases items with _ | ⟨a, _ | ⟨b, t⟩⟩
    · simp
    · simp
    · simp at h
  · rename_i h
    have hl : (items.take (items.length / 2)).length < items.length := by
      simp only [List.length_take]
      omega
    have hr : (items.drop (items.length / 2)).length < items.length := by
      simp only [List.length_drop]
      omega
    have hwt : ∀ x ∈ items.take (items.length / 2), WellFormed k x :=
      fun x hx => hw x (List.take_subset _ _ hx)
    have hwd : ∀ x ∈ items.drop (items.length / 2), WellFormed k x :=
      fun x hx => hw x (List.drop_subset _ _ hx)
    exact merge_pairwise _ _ k
      (fun x hx => hwt x (mem_of_mem_mergeSort hx))
      (fun x hx => hwd x (mem_of_mem_mergeSort hx))
      (mergeSort_pairwise _ k hwt)
      (mergeSort_pairwise _ k hwd)
termination_by items.length

/-- When every element of `l` is `keyLe`-below every element of `r`,
`merge` degenerates to concatenation. -/
theorem merge_eq_append (l r : List Product) (k : SortKey)
    (h : ∀ a ∈ l, ∀ b ∈ r, keyLe k a b) : merge id l r k = l ++ r := by
  induction l with
  | nil => cases r <;> simp [merge]
  | cons a ls ih =>
    cases r with
    | nil => simp [merge]
    | cons b rs =>
      have hab : keyLe k a b := h a (List.mem_cons_self a ls) b (List.mem_cons_self b rs)
      simp only [merge, id_eq, List.cons_append]
      rw [if_pos (show compareKey k a b ≤ 0 from hab),
        ih (fun x hx => h x (List.mem_cons_of_mem a hx))]

/-- `mergeSort` leaves an already-sorted list unchanged. -/
theorem mergeSort_eq_of_pairwise (items : List Product) (k : SortKey)
    (hp : items.Pairwise (keyLe k)) : mergeSort id items k = items := by
  rw [mergeSort_unfold]
  split
  · rfl
  · rename_i h
    have hl : (items.take (items.length / 2)).length < items.length := by
      simp only [List.length_take]
      omega
    have hr : (items.drop (items.length / 2)).length < items.length := by
      simp only [List.length_drop]
      omega
    have hp2 : (items.take (items.length / 2) ++ items.drop (items.length / 2)).Pairwise (keyLe k) := by
      rw [List.take_append_drop]
      exact hp
    obtain ⟨hpt, hpd, hcross⟩ := List.pairwise_append.mp hp2
    rw [mergeSort_eq_of_pairwise _ k hpt, mergeSort_eq_of_pairwise _ k hpd,
      merge_eq_append _ _ k hcross, List.take_append_drop]
termination_by items.length

/-! ## Stability -/

/-- In a merge of two sorted runs of well-formed records, the records
comparing equal to a fixed `p` come out as: those of the left run (in
order), then those of the right run (in order). -/
theorem merge_filter (l r : List Product) (k : SortKey) (p : Product) :
    (∀ x ∈ l, WellFormed k x) → (∀ x ∈ r, WellFormed k x) → WellFormed k p →
    l.Pairwise (keyLe k) → r.Pairwise (keyLe k) →
    (merge id l r k).filter (fun x => decide (keyEq k x p)) =
      l.filter (fun x => decide (keyEq k x p)) ++
        r.filter (fun x => decide (keyEq k x p)) := by
  induction l, r, k using merge.induct id with
  | case1 r k =>
    intro _ _ _ _ _
    simp [merge]
  | case2 k a ls =>
    intro _ _ _ _ _
    simp [merge]
  | case3 k a ls b rs hc ih =>
    intro hwl hwr hwp hpl hpr
    have hrec := ih (fun x hx => hwl x (List.mem_cons_of_mem a hx)) hwr hwp
      (List.pairwise_cons.mp hpl).2 hpr
    simp only [merge, if_pos hc]
    rw [List.filter_cons, List.filter_cons, hrec]
    split <;> simp
  | case4 k a ls b rs hc ih =>
    intro hwl hwr hwp hpl hpr
    have hrec := ih hwl (fun x hx => hwr x (List.mem_cons_of_mem b hx)) hwp hpl
      (List.pairwise_cons.mp hpr).2
    simp only [merge, if_neg hc]
    rw [List.filter_cons, hrec]
    by_cases hbp : keyEq k b p
    · have hnone : (a :: ls).filter (fun x => decide (keyEq k x p)) = [] := by
        rw [List.filter_eq_nil_iff]
        intro x hx hxp
        rw [decide_eq_true_iff] at hxp
        have hwx : WellFormed k x := hwl x hx
        have hwa : WellFormed k a := hwl a (List.mem_cons_self a ls)
        have hwb : WellFormed k b := hwr b (List.mem_cons_self b rs)
        have hxb : keyLe k x b := keyLe_trans hwx hwp hwb hxp.1 hbp.2
        have hab : keyLe k a b := by
          rcases List.mem_cons.mp hx with rfl | hx
          · exact hxb
          · exact keyLe_trans hwa hwx hwb ((List.pairwise_cons.mp hpl).1 x hx) hxb
        exact hc hab
      rw [if_pos (by simpa using hbp), hnone]
      simp [List.filter_cons, hbp]
    · rw [if_neg (by simpa using hbp)]
      simp [List.filter_cons, hbp]

/-- Stability of `mergeSort` on well-formed inputs, in filter form: the
subsequence of records comparing equal to any fixed well-formed `p` is
carried over unchanged. -/
theorem mergeSort_filter (items : List Product) (k : SortKey) (p : Product)
    (hw : ∀ x ∈ items, WellFormed k x) (hwp : WellFormed k p) :
    (mergeSort id items k).filter (fun x => decide (keyEq k x p)) =
      items.filter (fun x => decide (keyEq k x p)) := by
  rw [mergeSort_unfold]
  split
  · rfl
  · rename_i h
    have hl : (items.take (items.length / 2)).length < items.length := by
      simp only [List.length_take]
      omega
    have hr : (items.drop (items.length / 2)).length < items.length := by
      simp only [List.length_drop]
      omega
    have hwt : ∀ x ∈ items.take (items.length / 2), WellFormed k x :=
      fun x hx => hw x (List.take_subset _ _ hx)
    have hwd : ∀ x ∈ items.drop (items.length / 2), WellFormed k x :=
      fun x hx => hw x (List.drop_subset _ _ hx)
    rw [merge_filter _ _ k p
      (fun x hx => hwt x (mem_of_mem_mergeSort hx))
      (fun x hx => hwd x (mem_of_mem_mergeSort hx)) hwp
      (mergeSort_pairwise _ k hwt) (mergeSort_pairwise _ k hwd),
      mergeSort_filter _ k p hwt hwp, mergeSort_filter _ k p hwd hwp,
      ← List.filter_append, List.take_append_drop]
termination_by items.length

/-- Reading a pre-existing cell is unaffected by allocations at the end of
the store. -/
theorem Heap.read_append {h : Heap} (extra : List Product) {a : Addr}
    (ha : a < h.cells.length) :
    (Heap.mk (h.cells ++ extra)).read a = h.read a := by
  unfold Heap.read
  exact List.getD_append _ _ _ a ha

/-- What the defensive copy does to the store: it appends one
field-for-field copy per input reference (touching no existing cell) and
returns the addresses of the new cells, which are exactly the indices
starting at the old store size. -/
theorem allocCopies_spec (addrs : List Addr) (h : Heap)
    (hv : ∀ a ∈ addrs, a < h.cells.length) :
    allocCopies h addrs =
      (⟨h.cells ++ addrs.map (fun a => copyProduct (h.read a))⟩,
        List.range' h.cells.length addrs.length) := by
  induction addrs generalizing h with
  | nil => simp [allocCopies]
  | cons a rest ih =>
    have ha : a < h.cells.length := hv a (List.mem_cons_self a rest)
    have hv1 : ∀ b ∈ rest, b < (h.cells ++ [copyProduct (h.read a)]).length := by
      intro b hb
      simp only [List.length_append, List.length_cons, List.length_nil]
      exact Nat.lt_succ_of_lt (hv b (List.mem_cons_of_mem a hb))
    have hread : ∀ b ∈ rest,
        copyProduct ((Heap.mk (h.cells ++ [copyProduct (h.read a)])).read b) =
          copyProduct (h.read b) := by
      intro b hb
      rw [Heap.read_append _ (hv b (List.mem_cons_of_mem a hb))]
    simp only [allocCopies, ih _ hv1]
    rw [Prod.mk.injEq]
    constructor
    · rw [Heap.mk.injEq, List.map_congr_left hread]
      simp [List.append_assoc]
    · simp [List.length_append, List.range'_succ]


/-- The defensive copy copies every field, so at the value level it is the
identity. -/
theorem copyProduct_eq (p : Product) : copyProduct p = p := rfl

theorem map_copyProduct (l : List Product) : l.map copyProduct = l := by
  have h : copyProduct = id := funext fun p => rfl
  rw [h, List.map_id]

/-- On well-formed records the code's branch condition agrees with the
spec's "lesser or tie" comparison. -/
theorem keyLe_iff_specKeyLe {k : SortKey} {a b : Product}
    (ha : WellFormed k a) (hb : WellFormed k b) :
    keyLe k a b ↔ specKeyLe k a b := by
  cases k with
  | price =>
    obtain ⟨qa, hqa⟩ := Option.isSome_iff_exists.mp ha
    obtain ⟨qb, hqb⟩ := Option.isSome_iff_exists.mp hb
    rw [keyLe_price_iff hqa hqb]
    unfold specKeyLe
    rw [hqa, hqb]
    simp
  | name => exact Iff.rfl

/-- On well-formed inputs the code's `merge` computes the spec's reference
merge. -/
theorem merge_eq_specMerge (l r : List Product) (k : SortKey) :
    (∀ x ∈ l, WellFormed k x) → (∀ x ∈ r, WellFormed k x) →
    merge id l r k = specMerge l r k := by
  induction l, r, k using merge.induct id with
  | case1 r k =>
    intro _ _
    cases r <;> simp [merge, specMerge]
  | case2 k a ls =>
    intro _ _
    simp [merge, specMerge]
  | case3 k a ls b rs hc ih =>
    intro hwl hwr
    have hs : specKeyLe k a b :=
      (keyLe_iff_specKeyLe (hwl a (List.mem_cons_self a ls))
        (hwr b (List.mem_cons_self b rs))).mp hc
    simp only [merge, if_pos hc, specMerge, if_pos hs]
    rw [ih (fun x hx => hwl x (List.mem_cons_of_mem a hx)) hwr]
  | case4 k a ls b rs hc ih =>
    intro hwl hwr
    have hs : ¬ specKeyLe k a b := fun hs =>
      hc ((keyLe_iff_specKeyLe (hwl a (List.mem_cons_self a ls))
        (hwr b (List.mem_cons_self b rs))).mpr hs)
    simp only [merge, if_neg hc, specMerge, if_neg hs]
    rw [ih hwl (fun x hx => hwr x (List.mem_cons_of_mem b hx))]

/-- One-step unfolding of the spec's reference algorithm. -/
theorem specMergeSort_unfold (items : List Product) (k : SortKey) :
    specMergeSort items k =
      if items.length ≤ 1 then items
      else
        specMerge (specMergeSort (items.take (items.length / 2)) k)
          (specMergeSort (items.drop (items.length / 2)) k) k := by
  rw [specMergeSort, dite_eq_ite]

/-- On well-formed inputs the code's `mergeSort` computes the spec's
reference merge sort. -/
theorem mergeSort_eq_specMergeSort (items : List Product) (k : SortKey)
    (hw : ∀ x ∈ items, WellFormed k x) :
    mergeSort id items k = specMergeSort items k := by
  rw [mergeSort_unfold, specMergeSort_unfold]
  by_cases hc : items.length ≤ 1
  · rw [if_pos hc, if_pos hc]
  · rw [if_neg hc, if_neg hc]
    have hl : (items.take (items.length / 2)).length < items.length := by
      simp only [List.length_take]
      omega
    have hr : (items.drop (items.length / 2)).length < items.length := by
      simp only [List.length_drop]
      omega
    have hwt : ∀ x ∈ items.take (items.length / 2), WellFormed k x :=
      fun x hx => hw x (List.take_subset _ _ hx)
    have hwd : ∀ x ∈ items.drop (items.length / 2), WellFormed k x :=
      fun x hx => hw x (List.drop_subset _ _ hx)
    rw [merge_eq_specMerge _ _ k
      (fun x hx => hwt x (mem_of_mem_mergeSort hx))
      (fun x hx => hwd x (mem_of_mem_mergeSort hx)),
      mergeSort_eq_specMergeSort _ k hwt, mergeSort_eq_specMergeSort _ k hwd]
termination_by items.length

/-- Reading cell `i` of the freshly allocated block. -/
theorem Heap.read_fresh (h : Heap) (copies : List Product) (i : Nat)
    (_hi : i < copies.length) :
    (Heap.mk (h.cells ++ copies)).read (h.cells.length + i) =
      copies.getD i ⟨0, "", .num 0, ""⟩ := by
  unfold Heap.read
  rw [List.getD_append_right _ _ _ _ (Nat.le_add_right _ _)]
  simp

/-- Heap-level contract of `sortByPrice`/`sortByName` (both go through
`sortRef`): no pre-existing object is written; every reference in the
result is to a freshly allocated cell; and every result cell holds a
field-for-field copy of some input object.  The caller's array of input
references is passed by value and never reassigned, so it is unchanged by
construction. -/
theorem sortRef_spec (h : Heap) (addrs : List Addr) (k : SortKey)
    (hv : ∀ a ∈ addrs, a < h.cells.length) :
    (∀ a, a < h.cells.length → (sortRef h addrs k).1.read a = h.read a) ∧
    (∀ b ∈ (sortRef h addrs k).2, h.cells.length ≤ b) ∧
    (∀ b ∈ (sortRef h addrs k).2, ∃ a ∈ addrs,
      (sortRef h addrs k).1.read b = copyProduct (h.read a)) := by
  by_cases h0 : addrs.length = 0
  · simp [sortRef, h0]
  · simp only [sortRef, if_neg h0, allocCopies_spec addrs h hv]
    refine ⟨?_, ?_, ?_⟩
    · intro a ha
      exact Heap.read_append _ ha
    · intro b hb
      have hb2 := mem_of_mem_mergeSort hb
      rw [List.mem_range'] at hb2
      obtain ⟨i, hi, rfl⟩ := hb2
      omega
    · intro b hb
      have hb2 := mem_of_mem_mergeSort hb
      rw [List.mem_range'] at hb2
      obtain ⟨i, hi, hbi⟩ := hb2
      rw [one_mul] at hbi
      subst hbi
      have hil : i < (addrs.map (fun a => copyProduct (h.read a))).length := by
        simpa using hi
      refine ⟨addrs[i], List.getElem_mem hi, ?_⟩
      rw [Heap.read_fresh _ _ _ hil, List.getD_eq_getElem?_getD,
        List.getElem?_map, List.getElem?_eq_getElem hi]
      rfl

/-- `sortByPrice` on an actual array, with the defensive copy evaluated
away (it is the identity at the value level). -/
theorem sortByPrice_eq (l : List Product) :
    sortByPrice (JSValue.array l) =
      if l.length = 0 then [] else mergeSort id l .price := by
  simp only [sortByPrice, map_copyProduct]

/-- `sortByName` on an actual array, with the defensive copy evaluated
away. -/
theorem sortByName_eq (l : List Product) :
    sortByName (JSValue.array l) =
      if l.length = 0 then [] else mergeSort id l .name := by
  simp only [sortByName, map_copyProduct]

theorem priceLe_of_keyLe {a b : Product} (ha : WellFormed .price a)
    (hb : WellFormed .price b) (h : keyLe .price a b) : priceLe a b := by
  obtain ⟨qa, hqa⟩ := Option.isSome_iff_exists.mp ha
  obtain ⟨qb, hqb⟩ := Option.isSome_iff_exists.mp hb
  rw [keyLe_price_iff hqa hqb] at h
  unfold priceLe
  rw [hqa, hqb]
  exact h

theorem nameLe_of_keyLe {a b : Product} (h : keyLe .name a b) : nameLe a b :=
  (keyLe_name_iff a b).mp h

/-! ## The claims -/

/-- C1: for every finite sequence of records whose selected key values are
well-formed, every pair of adjacent elements (a, b) in the output of the
sort satisfies key(a) <= key(b) under the chosen comparison — numeric for
`price` (`priceLe`), textual for `name` (`nameLe`). -/
theorem claim_order_invariant (l : List Product) (k : SortKey)
    (hw : ∀ x ∈ l, WellFormed k x) :
    List.Chain' (keyLe k) (mergeSort id l k) ∧
    (match k with
     | SortKey.price => List.Chain' priceLe (sortByPrice (JSValue.array l))
     | SortKey.name => List.Chain' nameLe (sortByName (JSValue.array l))) := by
  refine ⟨(mergeSort_pairwise l k hw).chain', ?_⟩
  cases k with
  | price =>
    show List.Chain' priceLe (sortByPrice (JSValue.array l))
    rw [sortByPrice_eq]
    split
    · trivial
    · refine ((mergeSort_pairwise l .price hw).imp_of_mem ?_).chain'
      intro a b hma hmb hab
      exact priceLe_of_keyLe (hw a (mem_of_mem_mergeSort hma))
        (hw b (mem_of_mem_mergeSort hmb)) hab
  | name =>
    show List.Chain' nameLe (sortByName (JSValue.array l))
    rw [sortByName_eq]
    split
    · trivial
    · refine ((mergeSort_pairwise l .name hw).imp_of_mem ?_).chain'
      intro a b _ _ hab
      exact nameLe_of_keyLe hab

/-- Witness for C1 at the spec's scenario-1 catalog. -/
theorem claim_order_invariant_witness :
    (∀ x ∈ [pCat215, pCat75, pCat140], WellFormed SortKey.price x) ∧
    (List.Chain' (keyLe SortKey.price)
        (mergeSort id [pCat215, pCat75, pCat140] SortKey.price) ∧
      List.Chain' priceLe (sortByPrice (JSValue.array [pCat215, pCat75, pCat140]))) :=
  ⟨by decide, claim_order_invariant [pCat215, pCat75, pCat140] SortKey.price (by decide)⟩

/-- C2: for every finite input sequence and either key, the multiset of
elements in the output of the sort equals the multiset of the input (in
particular the lengths agree). -/
theorem claim_permutation (l : List Product) (k : SortKey) :
    Multiset.ofList (mergeSort id l k) = Multiset.ofList l ∧
    Multiset.ofList (sortByPrice (JSValue.array l)) = Multiset.ofList l ∧
    Multiset.ofList (sortByName (JSValue.array l)) = Multiset.ofList l ∧
    (mergeSort id l k).length = l.length := by
  have h1 := mergeSort_perm id l k
  refine ⟨Multiset.coe_eq_coe.mpr h1, ?_, ?_, h1.length_eq⟩
  · rw [sortByPrice_eq]
    split
    · rename_i h0
      rw [List.length_eq_zero.mp h0]
    · exact Multiset.coe_eq_coe.mpr (mergeSort_perm id l .price)
  · rw [sortByName_eq]
    split
    · rename_i h0
      rw [List.length_eq_zero.mp h0]
    · exact Multiset.coe_eq_coe.mpr (mergeSort_perm id l .name)

/-- C8: the sort returns `[]` on the empty sequence and `[x]` (element for
element equal) on any singleton, through `mergeSort` and through both
wrappers. -/
theorem claim_empty_singleton (x : Product) (k : SortKey) :
    sortByPrice (JSValue.array []) = [] ∧
    sortByName (JSValue.array []) = [] ∧
    mergeSort id ([] : List Product) k = [] ∧
    mergeSort id [x] k = [x] ∧
    sortByPrice (JSValue.array [x]) = [x] ∧
    sortByName (JSValue.array [x]) = [x] := by
  refine ⟨rfl, rfl, ?_, ?_, ?_, ?_⟩
  · rw [mergeSort_unfold]
    simp
  · rw [mergeSort_unfold]
    simp
  · rw [sortByPrice_eq, if_neg (by simp), mergeSort_unfold]
    simp
  · rw [sortByName_eq, if_neg (by simp), mergeSort_unfold]
    simp

/-- C10: `mergeSort` terminates on every finite input for either key: for
length >= 2 the split point `floor(n/2)` is at least 1 and leaves at least
1 element on the right, so both recursive calls get strictly shorter
lists (this is exactly the measure under which the Lean embedding of
`mergeSort` is accepted as a total, well-founded recursive function, and
the displayed recursion equation holds of it); the merge loop consumes
exactly one element per iteration, so it finishes after
`left.length + right.length` iterations with an output of that length. -/
theorem claim_termination (items : List Product) (k : SortKey)
    (l2 r2 : List Product) (h2 : 2 ≤ items.length) :
    1 ≤ items.length / 2 ∧
    1 ≤ items.length - items.length / 2 ∧
    (items.take (items.length / 2)).length < items.length ∧
    (items.drop (items.length / 2)).length < items.length ∧
    mergeSort id items k =
      merge id (mergeSort id (items.take (items.length / 2)) k)
        (mergeSort id (items.drop (items.length / 2)) k) k ∧
    (merge id l2 r2 k).length = l2.length + r2.length := by
  refine ⟨by omega, by omega, ?_, ?_, ?_, ?_⟩
  · simp only [List.length_take]
    omega
  · simp only [List.length_drop]
    omega
  · rw [mergeSort_unfold, if_neg (by omega)]
  · have h := (merge_perm id l2 r2 k).length_eq
    simpa using h

/-- Witness for C10 at a concrete two-element input. -/
theorem claim_termination_witness :
    2 ≤ ([pFive1, pSix] : List Product).length ∧
    (1 ≤ ([pFive1, pSix] : List Product).length / 2 ∧
      1 ≤ ([pFive1, pSix] : List Product).length - ([pFive1, pSix] : List Product).length / 2 ∧
      (([pFive1, pSix] : List Product).take (([pFive1, pSix] : List Product).length / 2)).length <
        ([pFive1, pSix] : List Product).length ∧
      (([pFive1, pSix] : List Product).drop (([pFive1, pSix] : List Product).length / 2)).length <
        ([pFive1, pSix] : List Product).length ∧
      mergeSort id [pFive1, pSix] SortKey.price =
        merge id
          (mergeSort id (([pFive1, pSix] : List Product).take (([pFive1, pSix] : List Product).length / 2)) SortKey.price)
          (mergeSort id (([pFive1, pSix] : List Product).drop (([pFive1, pSix] : List Product).length / 2)) SortKey.price)
          SortKey.price ∧
      (merge id [pFive1] [pSix] SortKey.price).length =
        ([pFive1] : List Product).length + ([pSix] : List Product).length) :=
  ⟨by decide, claim_termination [pFive1, pSix] SortKey.price [pFive1] [pSix] (by decide)⟩

/-- C3 counterexample: the claim quantifies over every input sequence, but
stability fails when a record with an unparseable price is present.  In
`[pFive1, pAbc, pFive2, pSix]` the records `pFive1` and `pFive2` have equal
price 5 (first conjunct) and `pFive1` precedes `pFive2`, yet the output
is `[pFive2, pSix, pAbc, pFive1]`, with `pFive2` before `pFive1`: the
`NaN` produced by `parseFloat("abc")` makes `<=` false in both directions,
so the sorted left half comes out as `[pAbc, pFive1]` and the final merge
emits the whole right half first. -/
theorem claim_stability_counterexample :
    keyEq SortKey.price pFive1 pFive2 ∧
    mergeSort id [pFive1, pAbc, pFive2, pSix] SortKey.price =
      [pFive2, pSix, pAbc, pFive1] := by
  constructor
  · decide
  · simp +decide [mergeSort_unfold, merge, compareKey, jsLe, parseFloat,
      pFive1, pAbc, pFive2, pSix]

/-- C3 (amended): on inputs all of whose selected key values are
well-formed, sorting is stable — for any reference record `p` of the
input, the subsequence of records comparing equal to `p` is exactly the
same, in the same order, before and after sorting — and in the merge step
a tie (indeed any `comparison <= 0`) always emits the left-hand element
first. -/
theorem claim_stability (l : List Product) (k : SortKey) (p a b : Product)
    (ls rs : List Product) (hw : ∀ x ∈ l, WellFormed k x) (hp : p ∈ l)
    (hab : keyLe k a b) :
    (mergeSort id l k).filter (fun x => decide (keyEq k x p)) =
      l.filter (fun x => decide (keyEq k x p)) ∧
    merge id (a :: ls) (b :: rs) k = a :: merge id ls (b :: rs) k := by
  refine ⟨mergeSort_filter l k p hw (hw p hp), ?_⟩
  simp only [merge, id_eq]
  rw [if_pos (show compareKey k a b ≤ 0 from hab)]

/-- Witness for the amended C3 at the spec's scenario-3 tie case. -/
theorem claim_stability_witness :
    (∀ x ∈ [pFive1, pFive2], WellFormed SortKey.price x) ∧
    pFive1 ∈ [pFive1, pFive2] ∧
    keyLe SortKey.price pFive1 pFive2 ∧
    ((mergeSort id [pFive1, pFive2] SortKey.price).filter
        (fun x => decide (keyEq SortKey.price x pFive1)) =
      [pFive1, pFive2].filter (fun x => decide (keyEq SortKey.price x pFive1)) ∧
      merge id [pFive1] [pFive2] SortKey.price =
        pFive1 :: merge id [] [pFive2] SortKey.price) :=
  ⟨by decide, by decide, by decide,
    claim_stability [pFive1, pFive2] SortKey.price pFive1 pFive1 pFive2 [] []
      (by decide) (by decide) (by decide)⟩

/-- C4 counterexample: on the spec's own example `sort([{price:"abc"}],
price)` the code does not fail with `InvalidKey` (it has no error path at
all); it returns the singleton unchanged. -/
theorem claim_invalid_key_counterexample :
    sortByPrice (JSValue.array [pAbc]) = [pAbc] := by
  simp [sortByPrice, mergeSort_unfold, copyProduct]

/-- C4 (amended): a price that fails to parse as a number is never
detected: `sortByPrice` raises nothing and returns a normal result — on
any input containing such a record it still returns a permutation of the
input, and on the spec's singleton example it returns the record
unchanged. -/
theorem claim_invalid_key (p : Product) (l : List Product)
    (_hnan : parseFloat p.price = none) (_hmem : p ∈ l) :
    Multiset.ofList (sortByPrice (JSValue.array l)) = Multiset.ofList l ∧
    sortByPrice (JSValue.array [p]) = [p] := by
  constructor
  · rw [sortByPrice_eq]
    split
    · rename_i h0
      rw [List.length_eq_zero.mp h0]
    · exact Multiset.coe_eq_coe.mpr (mergeSort_perm id l .price)
  · rw [sortByPrice_eq, if_neg (by simp), mergeSort_unfold]
    simp

/-- Witness for the amended C4 at the spec's scenario-5 record. -/
theorem claim_invalid_key_witness :
    parseFloat pAbc.price = none ∧
    pAbc ∈ [pAbc] ∧
    (Multiset.ofList (sortByPrice (JSValue.array [pAbc])) =
        Multiset.ofList [pAbc] ∧
      sortByPrice (JSValue.array [pAbc]) = [pAbc]) :=
  ⟨rfl, by decide, claim_invalid_key pAbc [pAbc] rfl (by decide)⟩

/-- C6 counterexample: given a value that is not an array, the code does
not fail with `InvalidInput` (it has no error path at all); both entry
points return `[]`. -/
theorem claim_invalid_input_counterexample :
    sortByPrice JSValue.notAnArray = [] ∧ sortByName JSValue.notAnArray = [] :=
  ⟨rfl, rfl⟩

/-- C6 (amended): when `Array.isArray` is false for the argument, the
guard of `sortByPrice`/`sortByName` returns the empty list synchronously
instead of raising `InvalidInput`. -/
theorem claim_invalid_input (v : JSValue) (hna : isArray v = false) :
    sortByPrice v = [] ∧ sortByName v = [] := by
  cases v with
  | array l => simp [isArray] at hna
  | notAnArray => exact ⟨rfl, rfl⟩

/-- Witness for the amended C6. -/
theorem claim_invalid_input_witness :
    isArray JSValue.notAnArray = false ∧
    (sortByPrice JSValue.notAnArray = [] ∧ sortByName JSValue.notAnArray = []) :=
  ⟨rfl, claim_invalid_input JSValue.notAnArray rfl⟩

/-- C5: the sort has no side effects on its input.  In the heap model:
after `sortByPrice`/`sortByName` every pre-existing object (in particular
every element of the input array) reads back unchanged; every reference in
the result is to a freshly allocated cell, disjoint from all pre-existing
ones; and each result cell holds a field-for-field copy of some input
element.  The caller's array of references itself is passed by value and
never reassigned, so it is unchanged by construction of the model. -/
theorem claim_non_mutation (h : Heap) (addrs : List Addr)
    (hv : ∀ a ∈ addrs, a < h.cells.length) :
    (∀ a, a < h.cells.length → (sortByPriceRef h addrs).1.read a = h.read a) ∧
    (∀ b ∈ (sortByPriceRef h addrs).2, h.cells.length ≤ b) ∧
    (∀ b ∈ (sortByPriceRef h addrs).2, ∃ a ∈ addrs,
      (sortByPriceRef h addrs).1.read b = copyProduct (h.read a)) ∧
    (∀ a, a < h.cells.length → (sortByNameRef h addrs).1.read a = h.read a) ∧
    (∀ b ∈ (sortByNameRef h addrs).2, h.cells.length ≤ b) ∧
    (∀ b ∈ (sortByNameRef h addrs).2, ∃ a ∈ addrs,
      (sortByNameRef h addrs).1.read b = copyProduct (h.read a)) := by
  obtain ⟨p1, p2, p3⟩ := sortRef_spec h addrs .price hv
  obtain ⟨n1, n2, n3⟩ := sortRef_spec h addrs .name hv
  exact ⟨p1, p2, p3, n1, n2, n3⟩

/-- Witness for C5 on a two-object heap. -/
theorem claim_non_mutation_witness :
    (∀ a ∈ [0, 1], a < heap0.cells.length) ∧
    ((∀ a, a < heap0.cells.length →
        (sortByPriceRef heap0 [0, 1]).1.read a = heap0.read a) ∧
      (∀ b ∈ (sortByPriceRef heap0 [0, 1]).2, heap0.cells.length ≤ b) ∧
      (∀ b ∈ (sortByPriceRef heap0 [0, 1]).2, ∃ a ∈ [0, 1],
        (sortByPriceRef heap0 [0, 1]).1.read b = copyProduct (heap0.read a)) ∧
      (∀ a, a < heap0.cells.length →
        (sortByNameRef heap0 [0, 1]).1.read a = heap0.read a) ∧
      (∀ b ∈ (sortByNameRef heap0 [0, 1]).2, heap0.cells.length ≤ b) ∧
      (∀ b ∈ (sortByNameRef heap0 [0, 1]).2, ∃ a ∈ [0, 1],
        (sortByNameRef heap0 [0, 1]).1.read b = copyProduct (heap0.read a))) :=
  ⟨by decide, claim_non_mutation heap0 [0, 1] (by decide)⟩

/-- C7 counterexample: the claim quantifies over every sequence, but
idempotence fails when prices do not parse: `NaN <= NaN` is false, so the
two-record merge always swaps, and sorting the sorted output swaps back.
Concretely `sort([abc, def]) = [def, abc]` but `sort(sort([abc, def]))
= [abc, def]`. -/
theorem claim_idempotence_counterexample :
    sortByPrice (JSValue.array (sortByPrice (JSValue.array [pAbc, pDef]))) ≠
      sortByPrice (JSValue.array [pAbc, pDef]) := by
  simp +decide [sortByPrice, mergeSort_unfold, merge, compareKey, jsLe,
    parseFloat, copyProduct, pAbc, pDef]

/-- C7 (amended): on sequences all of whose selected key values are
well-formed, sorting is idempotent, both for `mergeSort` directly and
through the wrapper for the chosen key. -/
theorem claim_idempotence (l : List Product) (k : SortKey)
    (hw : ∀ x ∈ l, WellFormed k x) :
    mergeSort id (mergeSort id l k) k = mergeSort id l k ∧
    (match k with
     | SortKey.price =>
        sortByPrice (JSValue.array (sortByPrice (JSValue.array l))) =
          sortByPrice (JSValue.array l)
     | SortKey.name =>
        sortByName (JSValue.array (sortByName (JSValue.array l))) =
          sortByName (JSValue.array l)) := by
  refine ⟨mergeSort_eq_of_pairwise _ k (mergeSort_pairwise l k hw), ?_⟩
  cases k with
  | price =>
    show sortByPrice (JSValue.array (sortByPrice (JSValue.array l))) =
      sortByPrice (JSValue.array l)
    by_cases h0 : l.length = 0
    · rw [List.length_eq_zero.mp h0]
      rfl
    · rw [sortByPrice_eq l, if_neg h0,
        sortByPrice_eq (mergeSort id l .price),
        if_neg (by rw [mergeSort_length]; exact h0)]
      exact mergeSort_eq_of_pairwise _ _ (mergeSort_pairwise l _ hw)
  | name =>
    show sortByName (JSValue.array (sortByName (JSValue.array l))) =
      sortByName (JSValue.array l)
    by_cases h0 : l.length = 0
    · rw [List.length_eq_zero.mp h0]
      rfl
    · rw [sortByName_eq l, if_neg h0,
        sortByName_eq (mergeSort id l .name),
        if_neg (by rw [mergeSort_length]; exact h0)]
      exact mergeSort_eq_of_pairwise _ _ (mergeSort_pairwise l _ hw)

/-- Witness for the amended C7. -/
theorem claim_idempotence_witness :
    (∀ x ∈ [pFive1, pSix], WellFormed SortKey.price x) ∧
    (mergeSort id (mergeSort id [pFive1, pSix] SortKey.price) SortKey.price =
        mergeSort id [pFive1, pSix] SortKey.price ∧
      sortByPrice (JSValue.array (sortByPrice (JSValue.array [pFive1, pSix]))) =
        sortByPrice (JSValue.array [pFive1, pSix])) :=
  ⟨by decide, claim_idempotence [pFive1, pSix] SortKey.price (by decide)⟩

/-- C9: `mergeSort` refines the spec's top-down reference algorithm.  For
length >= 2 it satisfies the reference recursion equation — a purely
positional split at `floor(n/2)` into first half and remainder, recursive
sorts with the same key, then merge; the merge appends the not-yet
exhausted side unchanged once the other is exhausted; and on well-formed
inputs the whole function coincides with the reference algorithm
`specMergeSort` modelled from the spec's words. -/
theorem claim_refines_spec (l : List Product) (k : SortKey)
    (l2 r2 : List Product) (hw : ∀ x ∈ l, WellFormed k x)
    (h2 : 2 ≤ l.length) :
    mergeSort id l k =
      merge id (mergeSort id (l.take (l.length / 2)) k)
        (mergeSort id (l.drop (l.length / 2)) k) k ∧
    merge id l2 [] k = l2 ∧
    merge id [] r2 k = r2 ∧
    mergeSort id l k = specMergeSort l k := by
  refine ⟨?_, ?_, ?_, mergeSort_eq_specMergeSort l k hw⟩
  · rw [mergeSort_unfold, if_neg (by omega)]
  · cases l2 <;> simp [merge]
  · cases r2 <;> simp [merge]

/-- Witness for C9 at a concrete well-formed two-element input. -/
theorem claim_refines_spec_witness :
    (∀ x ∈ [pCat215, pCat75], WellFormed SortKey.price x) ∧
    2 ≤ ([pCat215, pCat75] : List Product).length ∧
    (mergeSort id [pCat215, pCat75] SortKey.price =
        merge id
          (mergeSort id (([pCat215, pCat75] : List Product).take
            (([pCat215, pCat75] : List Product).length / 2)) SortKey.price)
          (mergeSort id (([pCat215, pCat75] : List Product).drop
            (([pCat215, pCat75] : List Product).length / 2)) SortKey.price)
          SortKey.price ∧
      merge id [pFive1] [] SortKey.price = [pFive1] ∧
      merge id [] [pSix] SortKey.price = [pSix] ∧
      mergeSort id [pCat215, pCat75] SortKey.price =
        specMergeSort [pCat215, pCat75] SortKey.price) :=
  ⟨by decide, by decide,
    claim_refines_spec [pCat215, pCat75] SortKey.price [pFive1] [pSix]
      (by decide) (by decide)⟩
